import Mathlib

/-!
Verification of `gerritlab` (files `gerritlab/merge_request.py` and
`gerritlab/global_vars.py`) against its natural-language specification.

The Python code is shallowly embedded as pure Lean functions:

* `MergeRequest` mirrors the fields of the Python class (dynamic attributes
  such as `_sha` that are only ever injected through `_set_data` are modelled
  as `Option` fields, `none` meaning "not set").
* Methods that perform HTTP requests become functions that take the remote's
  response (or a stream of responses, for the retry loops) as an explicit
  argument and return the new object state together with a description of the
  request issued and an `Option`al raised exception.
* The two unbounded loops (`merge`, `wait_until_stable`) and the unbounded
  recursion in `get_merge_request_chain` are embedded with an explicit fuel
  parameter; a `none` result means the Python original does not terminate.
  For `get_merge_request_chain` the fuel `mrs.length + 1` is exact: the
  successor of a merge request in the walk is a deterministic function of the
  current element, so a walk that emits `mrs.length + 1` elements must repeat
  an element and hence loops forever in Python, while a terminating walk
  visits pairwise-distinct elements and therefore emits at most `mrs.length`.
-/

/-- One merge request, mirroring the attribute set of the Python class
`MergeRequest`.  `source_branch` is effectively required (the constructor
immediately calls `rsplit` on it); all other remote-derived attributes are
optional. -/
structure MergeRequest where
  source_branch : String
  target_branch : Option String
  title : Option String
  description : Option String
  iid : Option Nat
  web_url : Option String
  sha : Option String
  mergeable : Bool
  local_branch : String
  needs_save : Bool
deriving DecidableEq, Repr

/-- The subset of a JSON merge-request payload that `_set_data` injects.
A `none` field means the key is absent from the payload, so the attribute
keeps its previous value. -/
structure MRData where
  source_branch : Option String
  target_branch : Option String
  title : Option String
  description : Option String
  iid : Option Nat
  web_url : Option String
  sha : Option String
  mergeable : Option Bool
deriving DecidableEq, Repr

/-- Split a character list at the first occurrence of `sep`: the part before
it and, when `sep` occurs, the part after it.  (Structural recursion so that
concrete witnesses reduce in the kernel; the library string splitters use
well-founded recursion and do not.) -/
def split_first (sep : Char) : List Char → List Char × Option (List Char)
  | [] => ([], none)
  | c :: cs =>
    if c = sep then ([], some cs)
    else
      let r := split_first sep cs
      (c :: r.1, r.2)

/-- Python `str.strip()`: drop leading and trailing whitespace. -/
def py_strip (s : String) : String :=
  ⟨((s.data.dropWhile Char.isWhitespace).reverse.dropWhile
      Char.isWhitespace).reverse⟩

/-- `s.rsplit("-", 1)[0]`: everything before the last "-", or `s` itself when
no "-" occurs. -/
def rsplit_head (s : String) : String :=
  match split_first '-' s.data.reverse with
  | (_, none) => s
  | (_, some preRev) => ⟨preRev.reverse⟩

/-- Keep the current value unless the payload carries the key. -/
def override_opt {α : Type} (arg cur : Option α) : Option α :=
  match arg with
  | some v => some v
  | none => cur

/-- `MergeRequest._set_data`: inject every key present in the payload, then
recompute `_local_branch = _source_branch.rsplit("-", 1)[0]`. -/
def MergeRequest.set_data (mr : MergeRequest) (d : MRData) : MergeRequest :=
  let s := d.source_branch.getD mr.source_branch
  { source_branch := s
    target_branch := override_opt d.target_branch mr.target_branch
    title := override_opt d.title mr.title
    description := override_opt d.description mr.description
    iid := override_opt d.iid mr.iid
    web_url := override_opt d.web_url mr.web_url
    sha := override_opt d.sha mr.sha
    mergeable := d.mergeable.getD mr.mergeable
    local_branch := rsplit_head s
    needs_save := mr.needs_save }

/-- The git commit object nested inside the commits handed to
`needs_update` / `wait_until_stable` (`commit.commit.message`,
`commit.commit.hexsha`). -/
structure GitCommit where
  message : String
  hexsha : String
deriving DecidableEq, Repr

/-- A stack commit as consumed by `MergeRequest`: the git commit plus the two
caller-supplied branch labels. -/
structure Commit where
  commit : GitCommit
  source_branch : String
  target_branch : String
deriving DecidableEq, Repr

/-- Modelled from the spec: `utils.get_msg_title_description` lives in
`gerritlab/utils.py`, which is not part of the provided sources.  The spec
says "message (first line = title, remainder = description)", so the title is
the first line of the commit message and the description is everything after
the first newline (empty when the message has no body). -/
def get_msg_title_description (msg : String) : String × String :=
  let r := split_first '\n' msg.data
  (⟨r.1⟩, match r.2 with | none => "" | some rest => ⟨rest⟩)

/-- `MergeRequest.needs_update`: true iff any of source branch, target branch,
title or description differs, where only the commit-derived description is
stripped (`self._description != desc.strip()`). -/
def MergeRequest.needs_update (mr : MergeRequest) (c : Commit) : Bool :=
  let td := get_msg_title_description c.commit.message
  (mr.source_branch != c.source_branch) ||
  (mr.target_branch != some c.target_branch) ||
  (mr.title != some td.1) ||
  (mr.description != some (py_strip td.2))

/-- `MergeRequest.set_target_branch`. -/
def MergeRequest.set_target_branch (mr : MergeRequest) (t : Option String) :
    MergeRequest :=
  if mr.target_branch ≠ t then
    { mr with target_branch := t, needs_save := true }
  else mr

/-- `MergeRequest.set_title`. -/
def MergeRequest.set_title (mr : MergeRequest) (t : Option String) :
    MergeRequest :=
  if mr.title ≠ t then { mr with title := t, needs_save := true } else mr

/-- `MergeRequest.set_desc`: compares the two descriptions after stripping
both, but stores the unstripped argument.  The Python code calls
`self._description.strip()`, which raises `AttributeError` when the current
description is `None`; that crash is the `none` result. -/
def MergeRequest.set_desc (mr : MergeRequest) (desc : String) :
    Option MergeRequest :=
  match mr.description with
  | none => none
  | some cur =>
    some (if py_strip cur ≠ py_strip desc then
      { mr with description := some desc, needs_save := true }
    else mr)

/-- `str(iid)` as interpolated into request URLs; `None` prints as "None". -/
def iid_repr : Option Nat → String
  | none => "None"
  | some n => toString n

/-- The parsed JSON body of a create/update response (the two keys the code
reads).  The embedding assumes the body parses as JSON. -/
structure Body where
  iid : Nat
  web_url : String
deriving DecidableEq, Repr

/-- An HTTP response: status code plus parsed body. -/
structure HttpResponse where
  status : Nat
  body : Body
deriving DecidableEq, Repr

/-- The diagnostic payload of the `SystemExit` raised by `create` on an HTTP
error: the branch pair and the parsed response body. -/
structure CreateError where
  source_branch : String
  target_branch : Option String
  body : Body
deriving DecidableEq, Repr

/-- `MergeRequest.create`: POST, then `raise_for_status` (which raises exactly
on status ≥ 400); on error a `SystemExit` carrying the branch pair and the
response body, leaving the object untouched; otherwise `iid` and `web_url`
are taken from the body. -/
def MergeRequest.create (mr : MergeRequest) (resp : HttpResponse) :
    MergeRequest × Option CreateError :=
  if 400 ≤ resp.status then
    (mr, some ⟨mr.source_branch, mr.target_branch, resp.body⟩)
  else
    ({ mr with iid := some resp.body.iid, web_url := some resp.body.web_url },
      none)

/-- The form payload of the PUT issued by `update`. -/
structure UpdateData where
  source_branch : String
  target_branch : Option String
  title : Option String
  description : Option String
deriving DecidableEq, Repr

/-- The PUT request issued by `update`: target URL and payload. -/
structure UpdateRequest where
  url : String
  data : UpdateData
deriving DecidableEq, Repr

/-- Result of `update`: the request that was issued, the object state
afterwards, and the status of the `requests.HTTPError` raised by
`raise_for_status` when the response status is ≥ 400. -/
structure UpdateResult where
  request : UpdateRequest
  state : MergeRequest
  error : Option Nat
deriving DecidableEq, Repr

/-- The four `if ... is not None` override assignments at the top of
`MergeRequest.update`. -/
def MergeRequest.apply_overrides (mr : MergeRequest)
    (sb tb ti de : Option String) : MergeRequest :=
  let mr := match sb with | some v => { mr with source_branch := v } | none => mr
  let mr := match tb with | some v => { mr with target_branch := some v } | none => mr
  let mr := match ti with | some v => { mr with title := some v } | none => mr
  match de with | some v => { mr with description := some v } | none => mr

/-- `MergeRequest.update`: apply the overrides to the local object, PUT the
resulting full state, raise on status ≥ 400 (the local object stays mutated),
and on success refresh `iid` and `web_url` from the response body.
`needs_save` is never touched. -/
def MergeRequest.update (mr_url : String) (mr : MergeRequest)
    (sb tb ti de : Option String) (resp : HttpResponse) : UpdateResult :=
  let mr1 := mr.apply_overrides sb tb ti de
  let req : UpdateRequest :=
    ⟨mr_url ++ "/" ++ iid_repr mr.iid,
      ⟨mr1.source_branch, mr1.target_branch, mr1.title, mr1.description⟩⟩
  if 400 ≤ resp.status then ⟨req, mr1, some resp.status⟩
  else
    ⟨req,
      { mr1 with iid := some resp.body.iid, web_url := some resp.body.web_url },
      none⟩

/-- Result of `save`: the state afterwards, the returned boolean (`none` when
the inner `update` raised and the exception propagated), and how many `update`
calls were issued. -/
structure SaveResult where
  state : MergeRequest
  returned : Option Bool
  updateCalls : Nat
deriving DecidableEq, Repr

/-- `MergeRequest.save`: call `update()` (no overrides) iff the dirty flag is
set; clear the flag and return whether an update happened.  When `update`
raises, the exception propagates before `_needs_save = False` runs, so the
flag stays set. -/
def MergeRequest.save (mr_url : String) (mr : MergeRequest)
    (resp : HttpResponse) : SaveResult :=
  if mr.needs_save then
    let u := MergeRequest.update mr_url mr none none none none resp
    match u.error with
    | some _ => ⟨u.state, none, 1⟩
    | none => ⟨{ u.state with needs_save := false }, some true, 1⟩
  else ⟨{ mr with needs_save := false }, some false, 0⟩

/-- The retry loop body of `merge`: request `i` gets status `s i`; stop as
soon as a status equals 200 (`requests.codes.ok`), otherwise sleep 2000 ms
and try again.  Returns the number of requests issued and the list of sleep
durations (ms); `none` when `fuel` runs out, i.e. the loop never sees 200. -/
def merge_go (s : Nat → Nat) (i : Nat) (sleeps : List Nat) :
    Nat → Option (Nat × List Nat)
  | 0 => none
  | fuel + 1 =>
    if s i == 200 then some (i + 1, sleeps)
    else merge_go s (i + 1) (sleeps ++ [2000]) fuel

/-- `MergeRequest.merge`: `ValueError` when `iid` is unset (checked before any
request), otherwise loop until a 200 response. -/
def MergeRequest.merge (mr : MergeRequest) (s : Nat → Nat) (fuel : Nat) :
    Except String (Option (Nat × List Nat)) :=
  if mr.iid = none then .error "Must set iid before merging an MR!"
  else .ok (merge_go s 0 [] fuel)

/-- Result of `delete`: the DELETE URL, the raised `HTTPError` status if any,
and the refspec pushed to delete the source branch (only on success and only
when requested). -/
structure DeleteResult where
  url : String
  error : Option Nat
  pushed : Option String
deriving DecidableEq, Repr

/-- `MergeRequest.delete`: `ValueError` when `iid` is unset (checked before
any request); otherwise DELETE, raise on status ≥ 400, and push an empty
refspec for the source branch when `delete_source_branch` is set. -/
def MergeRequest.delete (mr_url : String) (mr : MergeRequest)
    (delete_source_branch : Bool) (status : Nat) :
    Except String DeleteResult :=
  if mr.iid = none then .error "Must set iid before deleting an MR!"
  else .ok
    { url := mr_url ++ "/" ++ iid_repr mr.iid
      error := if 400 ≤ status then some status else none
      pushed :=
        if 400 ≤ status then none
        else if delete_source_branch then some (":" ++ mr.source_branch)
        else none }

/-- `MergeRequest.rebase`: PUT to `.../rebase` with no `iid` precondition
check; returns the URL and the raised status, if any. -/
def MergeRequest.rebase (mr_url : String) (mr : MergeRequest) (status : Nat) :
    String × Option Nat :=
  (mr_url ++ "/" ++ iid_repr mr.iid ++ "/rebase",
    if 400 ≤ status then some status else none)

/-- `MergeRequest.get_commits`: GET `.../commits` with no `iid` precondition
check; the returned JSON is not modelled (no claim inspects it). -/
def MergeRequest.get_commits (mr_url : String) (mr : MergeRequest)
    (status : Nat) : String × Option Nat :=
  (mr_url ++ "/" ++ iid_repr mr.iid ++ "/commits",
    if 400 ≤ status then some status else none)

/-- A response to the GET issued by `refresh`: status plus merge-request
payload. -/
structure RefreshResponse where
  status : Nat
  data : MRData
deriving DecidableEq, Repr

/-- `MergeRequest.refresh`: GET the MR (no `iid` check), raise on status
≥ 400 (before `_set_data`, so the object is unchanged on error), otherwise
overwrite the object from the payload. -/
def MergeRequest.refresh (mr_url : String) (mr : MergeRequest)
    (resp : RefreshResponse) : String × MergeRequest × Option Nat :=
  (mr_url ++ "/" ++ iid_repr mr.iid,
    if 400 ≤ resp.status then (mr, some resp.status)
    else (mr.set_data resp.data, none))

/-- The poll loop of `wait_until_stable`: refresh with response `resp i`,
propagate a refresh error, return when the freshly set `_sha` equals
`hexsha`, otherwise sleep 500 ms and poll again.  On normal return the result
carries the final object state, the number of refreshes and the sleeps (ms);
`none` when `fuel` runs out, i.e. the loop never returns. -/
def wait_go (mr_url : String) (hexsha : String) (resp : Nat → RefreshResponse)
    (mr : MergeRequest) (i : Nat) (sleeps : List Nat) :
    Nat → Option (Except Nat (MergeRequest × Nat × List Nat))
  | 0 => none
  | fuel + 1 =>
    match MergeRequest.refresh mr_url mr (resp i) with
    | (_, _, some e) => some (.error e)
    | (_, mr1, none) =>
      if mr1.sha == some hexsha then some (.ok (mr1, i + 1, sleeps))
      else wait_go mr_url hexsha resp mr1 (i + 1) (sleeps ++ [500]) fuel

/-- `MergeRequest.wait_until_stable`: poll until `self._sha` equals the
commit's `hexsha`. -/
def MergeRequest.wait_until_stable (mr_url : String) (mr : MergeRequest)
    (c : Commit) (resp : Nat → RefreshResponse) (fuel : Nat) :
    Option (Except Nat (MergeRequest × Nat × List Nat)) :=
  wait_go mr_url c.commit.hexsha resp mr 0 [] fuel

/-- A page of the open-MR listing, as seen by `_get_open_merge_requests`:
either one of the two caught exceptions (`HTTPError` from `raise_for_status`
or `InvalidHeader`), or the parsed JSON collection. -/
inductive PageResp (α : Type) where
  | err : PageResp α
  | ok : List α → PageResp α
deriving DecidableEq, Repr

/-- The paging loop of `_get_open_merge_requests`.  `fetch page per_page` is
the remote's answer for that page.  Returns the list of `(page, per_page)`
requests issued and either `.error ()` (the caught exception path:
`sys.exit(1)`, no partial result) or the accumulated non-empty pages in
order; the first empty page stops the loop and is not accumulated.  `none`
when `fuel` runs out (the remote answers non-empty pages forever). -/
def mrlist_go {α : Type} (fetch : Nat → Nat → PageResp α) (page : Nat) :
    Nat → Option (List (Nat × Nat) × Except Unit (List (List α)))
  | 0 => none
  | fuel + 1 =>
    match fetch page 50 with
    | .err => some ([(page, 50)], .error ())
    | .ok l =>
      if l.isEmpty then some ([(page, 50)], .ok [])
      else
        (mrlist_go fetch (page + 1) fuel).map
          (fun r => ((page, 50) :: r.1, r.2.map (l :: ·)))

/-- `_get_open_merge_requests`: page through the listing starting at page 1
with `per_page = 50`. -/
def _get_open_merge_requests {α : Type} (fetch : Nat → Nat → PageResp α)
    (fuel : Nat) : Option (List (Nat × Nat) × Except Unit (List (List α))) :=
  mrlist_go fetch 1 fuel

/-- The `(page, per_page)` pairs for `n` consecutive pages starting at `p`,
each with the fixed page size 50. -/
def page_requests (p : Nat) : Nat → List (Nat × Nat)
  | 0 => []
  | n + 1 => (p, 50) :: page_requests (p + 1) n

/-- `source_branches` in `get_merge_request_chain`: all source branches of
the input (the Python set, kept as a list since only membership is used). -/
def sourceBranches (mrs : List MergeRequest) : List String :=
  mrs.map (·.source_branch)

/-- `mr.target_branch not in source_branches`: a `None` target is never in a
set of strings, hence a root. -/
def is_root (mrs : List MergeRequest) (mr : MergeRequest) : Bool :=
  match mr.target_branch with
  | none => true
  | some t => !(sourceBranches mrs).contains t

/-- The `roots` list of `get_merge_request_chain`, in input order. -/
def rootsOf (mrs : List MergeRequest) : List MergeRequest :=
  mrs.filter (is_root mrs)

/-- `mrs_dict = {mr.target_branch: mr for mr in mrs}` followed by a lookup at
a string key: the last input element whose target branch equals the key
(later dict entries overwrite earlier ones). -/
def mrs_dict_find (mrs : List MergeRequest) (key : String) :
    Option MergeRequest :=
  mrs.reverse.find? (fun mr => mr.target_branch == some key)

/-- `get_merge_request_chain_inner`: emit the current element, stop when no
element targets its source branch, otherwise recurse on that element. -/
def chain_inner (mrs : List MergeRequest) (root : MergeRequest) :
    Nat → Option (List MergeRequest)
  | 0 => none
  | fuel + 1 =>
    match mrs_dict_find mrs root.source_branch with
    | none => some [root]
    | some next => (chain_inner mrs next fuel).map (root :: ·)

/-- The `for root in roots` loop: concatenate the inner chains in root
order. -/
def chain_outer (mrs : List MergeRequest) (fuel : Nat) :
    List MergeRequest → Option (List MergeRequest)
  | [] => some []
  | r :: rs => do
    let seg ← chain_inner mrs r fuel
    let rest ← chain_outer mrs fuel rs
    pure (seg ++ rest)

/-- `get_merge_request_chain`.  The fuel `mrs.length + 1` is exact (see the
header comment): `none` exactly when the Python recursion loops forever. -/
def get_merge_request_chain (mrs : List MergeRequest) :
    Option (List MergeRequest) :=
  if mrs.isEmpty then some []
  else chain_outer mrs (mrs.length + 1) (rootsOf mrs)

/-- A member of `mrs` is reachable from a root by child steps (a child is a
member whose target branch is its parent's source branch).  Reachability of
every member formalises the precondition "the target links form, per root, a
single acyclic linked list": it rules out cycles and orphaned members. -/
inductive Reaches (mrs : List MergeRequest) : MergeRequest → Prop where
  | root (m : MergeRequest) : m ∈ mrs → is_root mrs m = true → Reaches mrs m
  | step (p m : MergeRequest) : Reaches mrs p → m ∈ mrs →
      m.target_branch = some p.source_branch → Reaches mrs m

/-- `seg` is exactly the walk `get_merge_request_chain_inner` performs from
`m`: follow `mrs_dict_find` until it fails. -/
inductive ChainFrom (mrs : List MergeRequest) :
    MergeRequest → List MergeRequest → Prop where
  | last (m : MergeRequest) : mrs_dict_find mrs m.source_branch = none →
      ChainFrom mrs m [m]
  | cons (m c : MergeRequest) (seg : List MergeRequest) :
      mrs_dict_find mrs m.source_branch = some c → ChainFrom mrs c seg →
      ChainFrom mrs m (m :: seg)

/-- `pre` is the walk prefix from some root down to (but excluding) `m`. -/
inductive RootPath (mrs : List MergeRequest) :
    List MergeRequest → MergeRequest → Prop where
  | base (m : MergeRequest) : m ∈ mrs → is_root mrs m = true →
      RootPath mrs [] m
  | step (pre : List MergeRequest) (p c : MergeRequest) :
      RootPath mrs pre p → mrs_dict_find mrs p.source_branch = some c →
      RootPath mrs (pre ++ [p]) c

/-- `m` reaches `x` by zero or more `mrs_dict_find` successor steps. -/
inductive DownReach (mrs : List MergeRequest) :
    MergeRequest → MergeRequest → Prop where
  | refl (m : MergeRequest) : DownReach mrs m m
  | head (p c m : MergeRequest) : mrs_dict_find mrs p.source_branch = some c →
      DownReach mrs c m → DownReach mrs p m

/-! Concrete inputs used by the counterexamples and witnesses below. -/

/-- A two-element chain: `mr_a` is the root, `mr_b` its child. -/
def mr_a : MergeRequest :=
  ⟨"feat-1", some "master", some "t1", some "d1", some 1, some "u1", none,
    false, "feat", false⟩

/-- Child of `mr_a`. -/
def mr_b : MergeRequest :=
  ⟨"feat-2", some "feat-1", some "t2", some "d2", some 2, some "u2", none,
    false, "feat", false⟩

/-- First half of a two-cycle (`a → b → a` by target links). -/
def mr_cyc1 : MergeRequest :=
  ⟨"a", some "b", none, none, some 1, none, none, false, "a", false⟩

/-- Second half of a two-cycle. -/
def mr_cyc2 : MergeRequest :=
  ⟨"b", some "a", none, none, some 2, none, none, false, "b", false⟩

/-- For C3: the stored description carries a trailing blank. -/
def mr_c3 : MergeRequest :=
  ⟨"s", some "master", some "t", some "x ", some 1, none, none, false, "s",
    false⟩

/-- For C3: a commit whose message derives title "t" and description "x". -/
def commit_c3 : Commit := ⟨⟨"t\nx", "h"⟩, "s", "master"⟩

/-- For C4: clean merge request whose description is "x". -/
def mr_c4 : MergeRequest :=
  ⟨"s", some "m", some "t", some "x", some 1, none, none, false, "s", false⟩

/-- For C5: the first response has the success status 204, the second 200. -/
def s_c5 : Nat → Nat := fun i => if i == 0 then 204 else 200

/-- A merge request that was never created remotely (`iid` unset). -/
def mr_noiid : MergeRequest :=
  ⟨"feat-1", some "master", some "t", some "d", none, none, none, false,
    "feat", false⟩

/-- A merge request with `iid` set. -/
def mr_iid : MergeRequest :=
  ⟨"feat-1", some "master", some "t", some "d", some 5, some "u", none, false,
    "feat", true⟩

/-- For C6: every refresh answers 200 with sha "h". -/
def resp_c6 : Nat → RefreshResponse :=
  fun _ => ⟨200, ⟨none, none, none, none, none, none, some "h", none⟩⟩

/-- For C6: the local commit with hash "h". -/
def commit_c6 : Commit := ⟨⟨"msg", "h"⟩, "feat-1", "master"⟩

/-- For C7: page 1 holds one element, page 2 is empty. -/
def fetch_c7 : Nat → Nat → PageResp Nat :=
  fun p _ => if p = 1 then .ok [10] else .ok []

/-! ### C3: update detection (`needs_update`) -/

/-- Claim C3 counterexample: source branch, target branch and title match the
commit, and the stored and commit-derived descriptions agree after trimming
both sides, yet `needs_update` returns `true` — the code strips only the
commit-derived side, so the stored trailing blank makes them differ. -/
theorem needs_update_trims_only_commit_side :
    mr_c3.needs_update commit_c3 = true ∧
    mr_c3.source_branch = commit_c3.source_branch ∧
    mr_c3.target_branch = some commit_c3.target_branch ∧
    mr_c3.title = some (get_msg_title_description commit_c3.commit.message).1 ∧
    Option.map py_strip mr_c3.description =
      some (py_strip (get_msg_title_description commit_c3.commit.message).2) := by
  decide

/-- Claim C3 (amended): `needs_update` returns `false` iff `source_branch`,
`target_branch` and `title` equal the commit-derived values and the stored
description equals the commit-derived description trimmed on the commit side
only (the stored description is compared untrimmed). -/
theorem needs_update_iff (mr : MergeRequest) (c : Commit) :
    mr.needs_update c = false ↔
      (mr.source_branch = c.source_branch ∧
        mr.target_branch = some c.target_branch ∧
        mr.title = some (get_msg_title_description c.commit.message).1 ∧
        mr.description =
          some (py_strip (get_msg_title_description c.commit.message).2)) := by
  simp [MergeRequest.needs_update, and_assoc]

/-! ### C4: setter idempotence and `save` -/

/-- Claim C4 counterexample: `"x "` differs from the current description
`"x"`, yet `set_desc` stores nothing and leaves the dirty flag unset, because
the comparison trims both sides. -/
theorem set_desc_whitespace_no_dirty :
    mr_c4.set_desc "x " = some mr_c4 ∧
    mr_c4.description = some "x" ∧
    mr_c4.needs_save = false ∧
    ("x " : String) ≠ "x" := by
  decide

/-- Claim C4 (amended): `set_title` and `set_target_branch` gate on exact
equality; `set_desc` gates on equality after trimming both sides and stores
the untrimmed value; `save` on a clean object issues no update call, and on a
dirty object issues exactly one, clearing the flag only when the update
response is below 400 (on an error the exception propagates and the flag
stays set). -/
theorem setters_and_save_spec (mr : MergeRequest) (v : Option String)
    (d cur : String) (u : String) (resp : HttpResponse) :
    (mr.title = v → mr.set_title v = mr) ∧
    (mr.title ≠ v →
      mr.set_title v = { mr with title := v, needs_save := true }) ∧
    (mr.target_branch = v → mr.set_target_branch v = mr) ∧
    (mr.target_branch ≠ v →
      mr.set_target_branch v = { mr with target_branch := v, needs_save := true }) ∧
    (mr.description = some cur →
      (py_strip cur = py_strip d → mr.set_desc d = some mr) ∧
      (py_strip cur ≠ py_strip d →
        mr.set_desc d = some { mr with description := some d, needs_save := true })) ∧
    (mr.needs_save = false →
      MergeRequest.save u mr resp = ⟨mr, some false, 0⟩) ∧
    (mr.needs_save = true →
      (MergeRequest.save u mr resp).updateCalls = 1 ∧
      (resp.status < 400 →
        (MergeRequest.save u mr resp).state.needs_save = false ∧
        (MergeRequest.save u mr resp).returned = some true) ∧
      (400 ≤ resp.status →
        (MergeRequest.save u mr resp).state = mr ∧
        (MergeRequest.save u mr resp).returned = none)) := by
  refine ⟨?_, ?_, ?_, ?_, ?_, ?_, ?_⟩
  · intro h; simp [MergeRequest.set_title, h]
  · intro h; simp [MergeRequest.set_title, h]
  · intro h; simp [MergeRequest.set_target_branch, h]
  · intro h; simp [MergeRequest.set_target_branch, h]
  · intro hcur
    constructor <;> intro h <;> simp [MergeRequest.set_desc, hcur, h]
  · intro h
    cases mr
    simp_all [MergeRequest.save]
  · intro h
    have happ : mr.apply_overrides none none none none = mr := rfl
    by_cases hs : 400 ≤ resp.status
    · refine ⟨?_, ?_, ?_⟩ <;>
        simp [MergeRequest.save, MergeRequest.update, happ, h, hs]
    · refine ⟨?_, ?_, ?_⟩ <;>
        simp [MergeRequest.save, MergeRequest.update, happ, h, hs]

/-- Claim C4 witness: the amended statement evaluated on `mr_c4`: a fresh
title dirties the object, and `save` on the clean object performs no update
call. -/
theorem setters_and_save_witness :
    mr_c4.title ≠ some "t2" ∧
    mr_c4.set_title (some "t2") = { mr_c4 with title := some "t2", needs_save := true } ∧
    mr_c4.needs_save = false ∧
    MergeRequest.save "URL" mr_c4 ⟨200, ⟨3, "w"⟩⟩ = ⟨mr_c4, some false, 0⟩ :=
  ⟨by decide,
    (setters_and_save_spec mr_c4 (some "t2") "" "" "URL" ⟨200, ⟨3, "w"⟩⟩).2.1
      (by decide),
    by decide,
    (setters_and_save_spec mr_c4 (some "t2") "" "" "URL" ⟨200, ⟨3, "w"⟩⟩).2.2.2.2.2.1
      (by decide)⟩

/-! ### C5: the `merge` retry loop -/

/-- Helper: the merge loop stops at the first index whose status is 200,
having issued one request per index and slept 2000 ms between requests. -/
theorem merge_go_stops_at_200 (s : Nat → Nat) :
    ∀ (k fuel i : Nat) (acc : List Nat),
      (∀ j, j < k → s (i + j) ≠ 200) → s (i + k) = 200 → k + 1 ≤ fuel →
      merge_go s i acc fuel = some (i + k + 1, acc ++ List.replicate k 2000) := by
  intro k
  induction k with
  | zero =>
    intro fuel i acc _ h200 hfuel
    match fuel, hfuel with
    | fuel + 1, _ =>
      simp [merge_go, show s i = 200 by simpa using h200]
  | succ k ih =>
    intro fuel i acc hne h200 hfuel
    match fuel, hfuel with
    | fuel + 1, hfuel =>
      have h0 : s i ≠ 200 := by simpa using hne 0 (Nat.succ_pos k)
      have hrec := ih fuel (i + 1) (acc ++ [2000])
        (fun j hj => by
          have := hne (j + 1) (Nat.succ_lt_succ hj)
          simpa [Nat.add_assoc, Nat.add_comm 1 j] using this)
        (by
          have := h200
          simpa [Nat.add_assoc, Nat.add_comm 1 k] using this)
        (Nat.lt_succ_iff.mp hfuel)
      simp only [merge_go, beq_iff_eq, if_neg h0]
      rw [hrec]
      simp [List.replicate_succ, Nat.add_assoc, Nat.add_comm 1 k]

/-- Helper: if no response ever has status 200 the merge loop never stops. -/
theorem merge_go_never_stops (s : Nat → Nat) (hs : ∀ j, s j ≠ 200) :
    ∀ (fuel i : Nat) (acc : List Nat), merge_go s i acc fuel = none := by
  intro fuel
  induction fuel with
  | zero => intro i acc; rfl
  | succ fuel ih => intro i acc; simp [merge_go, hs i, ih]

/-- Claim C5 counterexample: the first response carries 204 — a success
status — yet the loop sleeps 2000 ms and issues a second request, because the
code retries on everything except exactly 200 (`requests.codes.ok`). -/
theorem merge_second_request_after_204 :
    mr_iid.merge s_c5 2 = .ok (some (2, [2000])) ∧
    200 ≤ s_c5 0 ∧ s_c5 0 < 300 ∧ s_c5 0 ≠ 200 := by
  refine ⟨rfl, by decide, by decide, by decide⟩

/-- Claim C5 (amended): with `iid` set, `merge` never raises, retries with a
fixed 2000 ms backoff on every status other than exactly 200, stops at the
first 200 response without issuing further requests, and never returns if no
response is ever 200. -/
theorem merge_retries_until_200 :
    (∀ (mr : MergeRequest) (s : Nat → Nat) (k fuel : Nat), mr.iid ≠ none →
      (∀ j, j < k → s j ≠ 200) → s k = 200 → k + 1 ≤ fuel →
      mr.merge s fuel = .ok (some (k + 1, List.replicate k 2000))) ∧
    (∀ (mr : MergeRequest) (s : Nat → Nat) (fuel : Nat), mr.iid ≠ none →
      (∀ j, s j ≠ 200) → mr.merge s fuel = .ok none) := by
  constructor
  · intro mr s k fuel hiid hne h200 hfuel
    have := merge_go_stops_at_200 s k fuel 0 [] (by simpa using hne)
      (by simpa using h200) hfuel
    simp [MergeRequest.merge, hiid, this]
  · intro mr s fuel hiid hs
    simp [MergeRequest.merge, hiid, merge_go_never_stops s hs]

/-- Claim C5 witness: the amended statement on a concrete stream whose third
response is the first 200: three requests, two 2000 ms sleeps. -/
theorem merge_retries_until_200_witness :
    mr_iid.iid ≠ none ∧
    mr_iid.merge (fun i => if i < 2 then 503 else 200) 3 =
      .ok (some (3, [2000, 2000])) :=
  ⟨by decide,
    merge_retries_until_200.1 mr_iid (fun i => if i < 2 then 503 else 200) 2 3
      (by decide) (fun j hj => by interval_cases j <;> decide) (by decide)
      (by decide)⟩

/-! ### C8: operations on a merge request that was never created -/

/-- Claim C8 counterexample: with `iid` unset, `update` and `rebase` are not
rejected — each issues a remote request whose URL interpolates the Python
`None`. -/
theorem update_without_iid_issues_request :
    mr_noiid.iid = none ∧
    (MergeRequest.update "URL" mr_noiid none none none none
        ⟨200, ⟨1, "w"⟩⟩).request.url = "URL/None" ∧
    (MergeRequest.update "URL" mr_noiid none none none none
        ⟨200, ⟨1, "w"⟩⟩).error = none ∧
    (MergeRequest.rebase "URL" mr_noiid 200).1 = "URL/None/rebase" := by
  decide

/-- Claim C8 (amended): only `merge` and `delete` check the precondition,
raising `ValueError` before any request; `update`, `rebase`, `refresh` and
`get_commits` perform no check and issue a request to a URL containing
"None". -/
theorem iid_precondition_checks :
    (∀ (mr : MergeRequest) (s : Nat → Nat) (fuel : Nat), mr.iid = none →
      mr.merge s fuel = .error "Must set iid before merging an MR!") ∧
    (∀ (u : String) (mr : MergeRequest) (f : Bool) (st : Nat), mr.iid = none →
      MergeRequest.delete u mr f st =
        .error "Must set iid before deleting an MR!") ∧
    (∀ (u : String) (mr : MergeRequest) (sb tb ti de : Option String)
        (resp : HttpResponse), mr.iid = none →
      (MergeRequest.update u mr sb tb ti de resp).request.url =
        u ++ "/" ++ "None") ∧
    (∀ (u : String) (mr : MergeRequest) (st : Nat), mr.iid = none →
      (MergeRequest.rebase u mr st).1 = u ++ "/" ++ "None" ++ "/rebase") ∧
    (∀ (u : String) (mr : MergeRequest) (resp : RefreshResponse),
      mr.iid = none → (MergeRequest.refresh u mr resp).1 = u ++ "/" ++ "None") ∧
    (∀ (u : String) (mr : MergeRequest) (st : Nat), mr.iid = none →
      (MergeRequest.get_commits u mr st).1 = u ++ "/" ++ "None" ++ "/commits") := by
  refine ⟨?_, ?_, ?_, ?_, ?_, ?_⟩
  · intro mr s fuel h; simp [MergeRequest.merge, h]
  · intro u mr f st h; simp [MergeRequest.delete, h]
  · intro u mr sb tb ti de resp h
    unfold MergeRequest.update
    split <;> simp [h, iid_repr]
  · intro u mr st h; simp [MergeRequest.rebase, h, iid_repr]
  · intro u mr resp h; simp [MergeRequest.refresh, h, iid_repr]
  · intro u mr st h; simp [MergeRequest.get_commits, h, iid_repr]

/-- Claim C8 witness: the amended statement on `mr_noiid`: `merge` is
rejected before any request, `refresh` is not. -/
theorem iid_precondition_witness :
    mr_noiid.iid = none ∧
    mr_noiid.merge s_c5 1 = .error "Must set iid before merging an MR!" ∧
    (MergeRequest.refresh "URL" mr_noiid (resp_c6 0)).1 = "URL" ++ "/" ++ "None" :=
  ⟨by decide,
    iid_precondition_checks.1 mr_noiid s_c5 1 (by decide),
    iid_precondition_checks.2.2.2.2.1 "URL" mr_noiid (resp_c6 0) (by decide)⟩

/-! ### C9: `create` -/

/-- Claim C9 counterexample: a 300 response is not a 2xx, yet `create` does
not fail — `raise_for_status` raises only at 400 and above — and it sets
`iid` and `web_url` from the body. -/
theorem create_on_300_sets_iid :
    mr_noiid.iid = none ∧
    MergeRequest.create mr_noiid ⟨300, ⟨7, "w"⟩⟩ =
      ({ mr_noiid with iid := some 7, web_url := some "w" }, none) ∧
    ¬(200 ≤ (300 : Nat) ∧ (300 : Nat) < 300) := by
  decide

/-- Claim C9 (amended): `create` fails without retrying exactly on a 4xx/5xx
response, raising a `SystemExit` that carries the branch pair and the parsed
response body while leaving the object (in particular `iid` and `web_url`)
unchanged; on any response with status below 400 it sets `iid` and `web_url`
from the body. -/
theorem create_spec (mr : MergeRequest) (resp : HttpResponse) :
    (400 ≤ resp.status →
      mr.create resp =
        (mr, some ⟨mr.source_branch, mr.target_branch, resp.body⟩)) ∧
    (resp.status < 400 →
      mr.create resp =
        ({ mr with iid := some resp.body.iid, web_url := some resp.body.web_url },
          none)) := by
  constructor
  · intro h; simp [MergeRequest.create, h]
  · intro h; simp [MergeRequest.create, Nat.not_le.mpr h]

/-- Claim C9 witness: the amended statement at a concrete 422 response and a
concrete 201 response. -/
theorem create_spec_witness :
    (400 ≤ (422 : Nat)) ∧
    MergeRequest.create mr_noiid ⟨422, ⟨9, "w9"⟩⟩ =
      (mr_noiid, some ⟨"feat-1", some "master", ⟨9, "w9"⟩⟩) ∧
    MergeRequest.create mr_noiid ⟨201, ⟨9, "w9"⟩⟩ =
      ({ mr_noiid with iid := some 9, web_url := some "w9" }, none) :=
  ⟨by decide,
    (create_spec mr_noiid ⟨422, ⟨9, "w9"⟩⟩).1 (by decide),
    (create_spec mr_noiid ⟨201, ⟨9, "w9"⟩⟩).2 (by decide)⟩

/-! ### C10: `update` mutates locally before the PUT -/

/-- Claim C10: `update` overwrites the local fields with the non-`None`
overrides before issuing the PUT (the payload is built from the mutated
state), so a non-success response leaves the object mutated; only on success
are `iid` and `web_url` refreshed from the response; `needs_save` is never
touched. -/
theorem update_mutates_before_put (u : String) (mr : MergeRequest)
    (sb tb ti de : Option String) (resp : HttpResponse) :
    (MergeRequest.update u mr sb tb ti de resp).request =
      ⟨u ++ "/" ++ iid_repr mr.iid,
        ⟨(mr.apply_overrides sb tb ti de).source_branch,
          (mr.apply_overrides sb tb ti de).target_branch,
          (mr.apply_overrides sb tb ti de).title,
          (mr.apply_overrides sb tb ti de).description⟩⟩ ∧
    (mr.apply_overrides sb tb ti de).source_branch = sb.getD mr.source_branch ∧
    (mr.apply_overrides sb tb ti de).target_branch =
      override_opt tb mr.target_branch ∧
    (mr.apply_overrides sb tb ti de).title = override_opt ti mr.title ∧
    (mr.apply_overrides sb tb ti de).description =
      override_opt de mr.description ∧
    (mr.apply_overrides sb tb ti de).iid = mr.iid ∧
    (mr.apply_overrides sb tb ti de).web_url = mr.web_url ∧
    (mr.apply_overrides sb tb ti de).needs_save = mr.needs_save ∧
    (400 ≤ resp.status →
      (MergeRequest.update u mr sb tb ti de resp).state =
        mr.apply_overrides sb tb ti de ∧
      (MergeRequest.update u mr sb tb ti de resp).error = some resp.status) ∧
    (resp.status < 400 →
      (MergeRequest.update u mr sb tb ti de resp).state =
        { mr.apply_overrides sb tb ti de with
            iid := some resp.body.iid, web_url := some resp.body.web_url } ∧
      (MergeRequest.update u mr sb tb ti de resp).error = none) := by
  refine ⟨?_, ?_, ?_, ?_, ?_, ?_, ?_, ?_, ?_, ?_⟩
  · unfold MergeRequest.update
    split <;> rfl
  · cases sb <;> cases tb <;> cases ti <;> cases de <;> rfl
  · cases sb <;> cases tb <;> cases ti <;> cases de <;> rfl
  · cases sb <;> cases tb <;> cases ti <;> cases de <;> rfl
  · cases sb <;> cases tb <;> cases ti <;> cases de <;> rfl
  · cases sb <;> cases tb <;> cases ti <;> cases de <;> rfl
  · cases sb <;> cases tb <;> cases ti <;> cases de <;> rfl
  · cases sb <;> cases tb <;> cases ti <;> cases de <;> rfl
  · intro h; constructor <;> simp [MergeRequest.update, h]
  · intro h; constructor <;> simp [MergeRequest.update, Nat.not_le.mpr h]

/-- Claim C10 witness: on a 500 response, `update` with a fresh title leaves
the local object mutated with that title while raising. -/
theorem update_mutates_before_put_witness :
    (400 ≤ (500 : Nat)) ∧
    ((MergeRequest.update "URL" mr_c4 none none (some "t9") none
        ⟨500, ⟨1, "w"⟩⟩).state =
      mr_c4.apply_overrides none none (some "t9") none ∧
    (MergeRequest.update "URL" mr_c4 none none (some "t9") none
        ⟨500, ⟨1, "w"⟩⟩).error = some 500) :=
  ⟨by decide,
    (update_mutates_before_put "URL" mr_c4 none none (some "t9") none
        ⟨500, ⟨1, "w"⟩⟩).2.2.2.2.2.2.2.2.1 (by decide)⟩

/-! ### C2: malformed dependency graphs -/

/-- Claim C2 counterexample: on the two-cycle `a → b → a` the function
neither hangs nor reports anything — it returns the empty list, silently
dropping both members (its return type has no error case at all). -/
theorem chain_cycle_silently_empty :
    get_merge_request_chain [mr_cyc1, mr_cyc2] = some [] ∧
    ([mr_cyc1, mr_cyc2] : List MergeRequest) ≠ [] := by
  decide

/-- Claim C2 (amended): on a rootless malformed input — every member's
target branch is some member's source branch, as in a pure cycle — the
function detects nothing and fails nothing: it terminates and silently
returns the empty list, dropping all members. -/
theorem chain_rootless_returns_empty (mrs : List MergeRequest)
    (hne : mrs ≠ [])
    (hall : ∀ mr ∈ mrs, ∃ t, mr.target_branch = some t ∧
      t ∈ sourceBranches mrs) :
    get_merge_request_chain mrs = some [] := by
  have hroots : rootsOf mrs = [] := by
    rw [rootsOf, List.filter_eq_nil_iff]
    intro mr hm
    obtain ⟨t, ht, hts⟩ := hall mr hm
    simp [is_root, ht, hts]
  have hne' : mrs.isEmpty = false := by
    cases mrs with
    | nil => exact absurd rfl hne
    | cons a l => rfl
  simp [get_merge_request_chain, hne', hroots, chain_outer]

/-- Claim C2 witness: the amended statement evaluated on the concrete
two-cycle. -/
theorem chain_rootless_witness :
    (([mr_cyc1, mr_cyc2] : List MergeRequest) ≠ []) ∧
    get_merge_request_chain [mr_cyc1, mr_cyc2] = some [] :=
  ⟨by decide,
    chain_rootless_returns_empty [mr_cyc1, mr_cyc2] (by decide)
      (by
        intro mr hm
        rcases List.mem_cons.mp hm with rfl | hm2
        · exact ⟨"b", rfl, by decide⟩
        · rcases List.mem_singleton.mp hm2 with rfl
          exact ⟨"a", rfl, by decide⟩)⟩

/-! ### C6: `wait_until_stable` -/

/-- Helper: a normal return of the poll loop carries a state whose sha is the
polled-for hash. -/
theorem wait_go_ok_sha (u h : String) (resp : Nat → RefreshResponse) :
    ∀ (fuel i : Nat) (acc : List Nat) (mr mr' : MergeRequest) (n : Nat)
      (sl : List Nat),
      wait_go u h resp mr i acc fuel = some (.ok (mr', n, sl)) →
      mr'.sha = some h := by
  intro fuel
  induction fuel with
  | zero => intro i acc mr mr' n sl hw; exact absurd hw (by simp [wait_go])
  | succ fuel ih =>
    intro i acc mr mr' n sl hw
    simp only [wait_go, MergeRequest.refresh] at hw
    by_cases hst : 400 ≤ (resp i).status
    · simp [hst] at hw
    · simp only [if_neg hst] at hw
      by_cases hsha : (mr.set_data (resp i).data).sha = some h
      · simp [hsha] at hw
        rw [← hw.1, hsha]
      · simp only [show ((mr.set_data (resp i).data).sha == some h) = false by
          simpa using hsha, if_neg Bool.false_ne_true] at hw
        exact ih (i + 1) (acc ++ [500]) (mr.set_data (resp i).data) mr' n sl hw

/-- Helper: when responses `i, i+1, ...` succeed and carry shas that first
hit `h` after `k` misses, the poll loop returns after `k + 1` refreshes with
`k` sleeps of 500 ms. -/
theorem wait_go_reaches (u h : String) (resp : Nat → RefreshResponse)
    (σ : Nat → String) :
    ∀ (k i fuel : Nat) (acc : List Nat) (mr : MergeRequest),
      (∀ j, j ≤ k → (resp (i + j)).status < 400) →
      (∀ j, j ≤ k → (resp (i + j)).data.sha = some (σ (i + j))) →
      (∀ j, j < k → σ (i + j) ≠ h) →
      σ (i + k) = h →
      k + 1 ≤ fuel →
      ∃ mr', wait_go u h resp mr i acc fuel =
        some (.ok (mr', i + k + 1, acc ++ List.replicate k 500)) := by
  intro k
  induction k with
  | zero =>
    intro i fuel acc mr hst hsha _ hhit hfuel
    match fuel, hfuel with
    | fuel + 1, _ =>
      have h0 : (resp i).status < 400 := by simpa using hst 0 (le_refl 0)
      have hs0 : (resp i).data.sha = some (σ i) := by
        simpa using hsha 0 (le_refl 0)
      have hsig : σ i = h := by simpa using hhit
      have hsha1 : (mr.set_data (resp i).data).sha = some h := by
        simp [MergeRequest.set_data, override_opt, hs0, hsig]
      refine ⟨mr.set_data (resp i).data, ?_⟩
      simp [wait_go, MergeRequest.refresh, Nat.not_le.mpr h0, hsha1]
  | succ k ih =>
    intro i fuel acc mr hst hsha hne hhit hfuel
    match fuel, hfuel with
    | fuel + 1, hfuel =>
      have h0 : (resp i).status < 400 := by simpa using hst 0 (Nat.zero_le _)
      have hs0 : (resp i).data.sha = some (σ i) := by
        simpa using hsha 0 (Nat.zero_le _)
      have hne0 : σ i ≠ h := by simpa using hne 0 (Nat.succ_pos k)
      have hsha1 : (mr.set_data (resp i).data).sha = some (σ i) := by
        simp [MergeRequest.set_data, override_opt, hs0]
      obtain ⟨mr', hmr'⟩ := ih (i + 1) fuel (acc ++ [500])
        (mr.set_data (resp i).data)
        (fun j hj => by
          have := hst (j + 1) (Nat.succ_le_succ hj)
          simpa [Nat.add_assoc, Nat.add_comm 1 j] using this)
        (fun j hj => by
          have := hsha (j + 1) (Nat.succ_le_succ hj)
          simpa [Nat.add_assoc, Nat.add_comm 1 j] using this)
        (fun j hj => by
          have := hne (j + 1) (Nat.succ_lt_succ hj)
          simpa [Nat.add_assoc, Nat.add_comm 1 j] using this)
        (by
          have := hhit
          simpa [Nat.add_assoc, Nat.add_comm 1 k] using this)
        (Nat.lt_succ_iff.mp hfuel)
      refine ⟨mr', ?_⟩
      have hne1 : ((mr.set_data (resp i).data).sha == some h) = false := by
        simp [hsha1, hne0]
      simp only [wait_go, MergeRequest.refresh, if_neg (Nat.not_le.mpr h0),
        hne1, if_neg Bool.false_ne_true]
      rw [hmr']
      simp [List.replicate_succ, Nat.add_assoc, Nat.add_comm 1 k]

/-- Helper: when every response succeeds but no sha ever equals `h`, the poll
loop never returns. -/
theorem wait_go_never (u h : String) (resp : Nat → RefreshResponse)
    (σ : Nat → String)
    (hst : ∀ j, (resp j).status < 400)
    (hsha : ∀ j, (resp j).data.sha = some (σ j))
    (hne : ∀ j, σ j ≠ h) :
    ∀ (fuel i : Nat) (acc : List Nat) (mr : MergeRequest),
      wait_go u h resp mr i acc fuel = none := by
  intro fuel
  induction fuel with
  | zero => intro i acc mr; rfl
  | succ fuel ih =>
    intro i acc mr
    have hsha1 : (mr.set_data (resp i).data).sha = some (σ i) := by
      simp [MergeRequest.set_data, override_opt, hsha i]
    simp [wait_go, MergeRequest.refresh, Nat.not_le.mpr (hst i), hsha1,
      hne i, ih]

/-- Claim C6: `wait_until_stable` returns normally only with a state whose
reported sha equals the commit's hash; when the responses succeed and the
first matching sha arrives after `k` misses it returns after `k + 1`
refreshes separated by 500 ms sleeps; and when no response ever carries the
commit's hash it never returns. -/
theorem wait_until_stable_spec (u : String) (mr : MergeRequest) (c : Commit)
    (resp : Nat → RefreshResponse) :
    (∀ (fuel : Nat) (mr' : MergeRequest) (n : Nat) (sl : List Nat),
      MergeRequest.wait_until_stable u mr c resp fuel =
        some (.ok (mr', n, sl)) → mr'.sha = some c.commit.hexsha) ∧
    (∀ (σ : Nat → String) (k : Nat),
      (∀ j, j ≤ k → (resp j).status < 400) →
      (∀ j, j ≤ k → (resp j).data.sha = some (σ j)) →
      (∀ j, j < k → σ j ≠ c.commit.hexsha) →
      σ k = c.commit.hexsha →
      ∀ fuel, k + 1 ≤ fuel →
      ∃ mr', MergeRequest.wait_until_stable u mr c resp fuel =
        some (.ok (mr', k + 1, List.replicate k 500))) ∧
    (∀ σ : Nat → String,
      (∀ j, (resp j).status < 400) →
      (∀ j, (resp j).data.sha = some (σ j)) →
      (∀ j, σ j ≠ c.commit.hexsha) →
      ∀ fuel, MergeRequest.wait_until_stable u mr c resp fuel = none) := by
  refine ⟨?_, ?_, ?_⟩
  · intro fuel mr' n sl hw
    exact wait_go_ok_sha u c.commit.hexsha resp fuel 0 [] mr mr' n sl hw
  · intro σ k hst hsha hne hhit fuel hfuel
    have := wait_go_reaches u c.commit.hexsha resp σ k 0 fuel [] mr
      (fun j hj => by simpa using hst j hj)
      (fun j hj => by simpa using hsha j hj)
      (fun j hj => by simpa using hne j hj)
      (by simpa using hhit) hfuel
    simpa [MergeRequest.wait_until_stable] using this
  · intro σ hst hsha hne fuel
    exact wait_go_never u c.commit.hexsha resp σ hst hsha hne fuel 0 [] mr

/-- Claim C6 witness: with every refresh answering 200 and sha "h", polling
for commit hash "h" returns after one refresh and no sleep. -/
theorem wait_until_stable_witness :
    (∀ j : Nat, (resp_c6 j).status < 400) ∧
    (resp_c6 0).data.sha = some "h" ∧
    (∃ mr', MergeRequest.wait_until_stable "URL" mr_noiid commit_c6 resp_c6 1 =
      some (.ok (mr', 1, []))) :=
  ⟨fun j => by norm_num [resp_c6], by decide,
    (wait_until_stable_spec "URL" mr_noiid commit_c6 resp_c6).2.1
      (fun _ => "h") 0 (fun j _ => by norm_num [resp_c6]) (fun _ _ => rfl)
      (fun j hj => absurd hj (Nat.not_lt_zero j)) rfl 1 (le_refl 1)⟩

/-! ### C7: pagination of the open-MR listing -/

/-- Helper: the paging loop walks the non-empty pages in order from `p`,
requesting each page with page size 50, and the first empty page (not
accumulated) or the first error ends it. -/
theorem mrlist_go_pages {α : Type} (fetch : Nat → Nat → PageResp α) :
    ∀ (pages : List (List α)) (p fuel : Nat),
      (∀ i (hi : i < pages.length),
        fetch (p + i) 50 = .ok (pages.get ⟨i, hi⟩) ∧ pages.get ⟨i, hi⟩ ≠ []) →
      pages.length + 1 ≤ fuel →
      (fetch (p + pages.length) 50 = .ok [] →
        mrlist_go fetch p fuel =
          some (page_requests p (pages.length + 1), .ok pages)) ∧
      (fetch (p + pages.length) 50 = .err →
        mrlist_go fetch p fuel =
          some (page_requests p (pages.length + 1), .error ())) := by
  intro pages
  induction pages with
  | nil =>
    intro p fuel _ hfuel
    match fuel, hfuel with
    | fuel + 1, _ =>
      constructor <;> intro hlast <;>
        simp [mrlist_go, page_requests, show fetch p 50 = _ by simpa using hlast]
  | cons l ls ih =>
    intro p fuel hpages hfuel
    match fuel, hfuel with
    | fuel + 1, hfuel =>
      have h0 := hpages 0 (Nat.succ_pos ls.length)
      have h0f : fetch p 50 = .ok l := by simpa using h0.1
      have h0ne : l ≠ [] := by simpa using h0.2
      have hrec := ih (p + 1) fuel
        (fun i hi => by
          have := hpages (i + 1) (Nat.succ_lt_succ hi)
          simpa [Nat.add_assoc, Nat.add_comm 1 i] using this)
        (Nat.lt_succ_iff.mp hfuel)
      constructor <;> intro hlast
      · have := hrec.1 (by
          have := hlast
          simpa [Nat.add_assoc, Nat.add_comm 1 ls.length] using this)
        simp [mrlist_go, h0f, List.isEmpty_iff, h0ne, this, page_requests,
          Except.map]
      · have := hrec.2 (by
          have := hlast
          simpa [Nat.add_assoc, Nat.add_comm 1 ls.length] using this)
        simp [mrlist_go, h0f, List.isEmpty_iff, h0ne, this, page_requests,
          Except.map]

/-- Claim C7: the listing starts at page 1 with the fixed page size 50, stops
exactly at the first empty page (which is not accumulated), returns the prior
non-empty pages in order, and an error at any page aborts the whole listing
(`sys.exit(1)`) instead of returning a partial result. -/
theorem open_mr_listing_spec {α : Type} (fetch : Nat → Nat → PageResp α)
    (pages : List (List α)) (fuel : Nat)
    (hpages : ∀ i (hi : i < pages.length),
      fetch (1 + i) 50 = .ok (pages.get ⟨i, hi⟩) ∧ pages.get ⟨i, hi⟩ ≠ [])
    (hfuel : pages.length + 1 ≤ fuel) :
    (fetch (1 + pages.length) 50 = .ok [] →
      _get_open_merge_requests fetch fuel =
        some (page_requests 1 (pages.length + 1), .ok pages)) ∧
    (fetch (1 + pages.length) 50 = .err →
      _get_open_merge_requests fetch fuel =
        some (page_requests 1 (pages.length + 1), .error ())) :=
  mrlist_go_pages fetch pages 1 fuel hpages hfuel

/-- Claim C7 witness: page 1 holds `[10]`, page 2 is empty: the listing
requests pages 1 and 2 with page size 50 and returns exactly the one
non-empty page. -/
theorem open_mr_listing_witness :
    fetch_c7 2 50 = .ok [] ∧
    _get_open_merge_requests fetch_c7 2 =
      some ([(1, 50), (2, 50)], .ok [[10]]) :=
  ⟨by decide,
    (open_mr_listing_spec fetch_c7 [[10]] 2
      (fun i hi => by
        have h0 : i = 0 := Nat.lt_one_iff.mp hi
        subst h0
        exact ⟨rfl, by simp⟩)
      (le_refl 2)).1 (by decide)⟩

/-! ### C1: chain reconstruction -/

/-- Helper: a member's source branch is in the source-branch set. -/
theorem mem_sourceBranches {mrs : List MergeRequest} {p : MergeRequest}
    (hp : p ∈ mrs) : p.source_branch ∈ sourceBranches mrs :=
  List.mem_map_of_mem _ hp

/-- Helper: a successful dict lookup returns a member whose target branch is
the key. -/
theorem mrs_dict_find_mem {mrs : List MergeRequest} {k : String}
    {c : MergeRequest} (h : mrs_dict_find mrs k = some c) :
    c ∈ mrs ∧ c.target_branch = some k := by
  constructor
  · have := List.mem_of_find?_eq_some h
    simpa using this
  · have := List.find?_some h
    simpa using this

/-- Helper: the dict lookup succeeds whenever some member has the key as its
target branch. -/
theorem mrs_dict_find_exists {mrs : List MergeRequest} {k : String}
    {m : MergeRequest} (hm : m ∈ mrs) (ht : m.target_branch = some k) :
    ∃ c, mrs_dict_find mrs k = some c := by
  cases hfind : mrs_dict_find mrs k with
  | some c => exact ⟨c, rfl⟩
  | none =>
    rw [mrs_dict_find, List.find?_eq_none] at hfind
    exact absurd (by simp [ht]) (hfind m (by simpa using hm))

/-- Helper: distinct source branches make `source_branch` injective on the
input. -/
theorem source_inj {mrs : List MergeRequest}
    (h1 : (sourceBranches mrs).Nodup) {m1 m2 : MergeRequest}
    (hm1 : m1 ∈ mrs) (hm2 : m2 ∈ mrs)
    (hs : m1.source_branch = m2.source_branch) : m1 = m2 :=
  List.inj_on_of_nodup_map h1 hm1 hm2 hs

/-- Helper: a member whose target branch is a present source branch is not a
root. -/
theorem is_root_false_of_mem {mrs : List MergeRequest} {m : MergeRequest}
    {t : String} (ht : m.target_branch = some t)
    (hmem : t ∈ sourceBranches mrs) : is_root mrs m = false := by
  simp [is_root, ht, hmem]

/-- Helper: a root cannot target a member's source branch. -/
theorem is_root_true_target {mrs : List MergeRequest} {m p : MergeRequest}
    (hr : is_root mrs m = true) (hp : p ∈ mrs)
    (ht : m.target_branch = some p.source_branch) : False := by
  simp [is_root, ht] at hr
  exact hr (mem_sourceBranches hp)

/-- Helper: under unique targets-in-set, the dict lookup at a present source
branch finds exactly the member targeting it. -/
theorem mrs_dict_find_eq {mrs : List MergeRequest}
    (h2 : ∀ m1 ∈ mrs, ∀ m2 ∈ mrs, m1.target_branch = m2.target_branch →
      is_root mrs m1 = false → m1 = m2)
    {m : MergeRequest} {k : String} (hm : m ∈ mrs)
    (ht : m.target_branch = some k) (hk : k ∈ sourceBranches mrs) :
    mrs_dict_find mrs k = some m := by
  obtain ⟨c, hc⟩ := mrs_dict_find_exists hm ht
  obtain ⟨hcm, hct⟩ := mrs_dict_find_mem hc
  have : c = m := h2 c hcm m hm (by rw [hct, ht])
    (is_root_false_of_mem hct hk)
  rw [hc, this]

/-- Helper: every element on a root path is a member. -/
theorem rootPath_mem {mrs : List MergeRequest} {pre : List MergeRequest}
    {m : MergeRequest} (h : RootPath mrs pre m) :
    ∀ x ∈ pre ++ [m], x ∈ mrs := by
  induction h with
  | base a ha _ =>
    intro x hx
    rw [List.nil_append, List.mem_singleton] at hx
    subst hx; exact ha
  | step pre p c hrp hd ih =>
    intro x hx
    rcases List.mem_append.mp hx with h1 | h2
    · exact ih x h1
    · rw [List.mem_singleton] at h2
      subst h2; exact (mrs_dict_find_mem hd).1

/-- Helper: every element on a root path is either a root or the dict
successor of an earlier element of the path. -/
theorem rootPath_pred {mrs : List MergeRequest} {pre : List MergeRequest}
    {m : MergeRequest} (h : RootPath mrs pre m) :
    ∀ x ∈ pre ++ [m], is_root mrs x = true ∨
      ∃ q ∈ pre, mrs_dict_find mrs q.source_branch = some x := by
  induction h with
  | base a _ hr =>
    intro x hx
    rw [List.nil_append, List.mem_singleton] at hx
    subst hx; exact .inl hr
  | step pre p c hrp hd ih =>
    intro x hx
    rcases List.mem_append.mp hx with h1 | h2
    · rcases ih x h1 with hr | ⟨q, hq, hqd⟩
      · exact .inl hr
      · exact .inr ⟨q, List.mem_append_left _ hq, hqd⟩
    · rw [List.mem_singleton] at h2
      subst h2
      exact .inr ⟨p, List.mem_append_right _ (by simp), hd⟩

/-- Helper: with distinct source branches a root path never revisits an
element: the dict successor is deterministic, a repeat would need two path
elements with the same source branch (or a root with a member target). -/
theorem rootPath_nodup {mrs : List MergeRequest}
    (h1 : (sourceBranches mrs).Nodup) {pre : List MergeRequest}
    {m : MergeRequest} (h : RootPath mrs pre m) : (pre ++ [m]).Nodup := by
  induction h with
  | base a _ _ => simp
  | step pre p c hrp hd ih =>
    have hcnot : c ∉ pre ++ [p] := by
      intro hc
      rcases rootPath_pred hrp c hc with hr | ⟨q, hq, hqd⟩
      · exact is_root_true_target hr (rootPath_mem hrp p (by simp))
          (mrs_dict_find_mem hd).2
      · have hqc := (mrs_dict_find_mem hqd).2
        have hpc := (mrs_dict_find_mem hd).2
        have hqs : q.source_branch = p.source_branch := by
          rw [hqc] at hpc
          exact Option.some.inj hpc
        have hqp : q = p := source_inj h1
          (rootPath_mem hrp q (List.mem_append_left _ hq))
          (rootPath_mem hrp p (by simp)) hqs
        have hpnot : p ∉ pre := by
          intro hp
          rcases List.nodup_append.mp ih with ⟨_, _, hdisj⟩
          exact hdisj hp (by simp)
        exact hpnot (hqp ▸ hq)
    rw [List.nodup_append]
    refine ⟨ih, List.nodup_singleton c, ?_⟩
    intro a ha hb
    rw [List.mem_singleton] at hb
    subst hb
    exact hcnot ha

/-- Helper: from any end of a root path the walk completes: it cannot run
longer than the number of members, since the visited prefix never repeats. -/
theorem chainFrom_exists {mrs : List MergeRequest}
    (h1 : (sourceBranches mrs).Nodup) :
    ∀ (fuel : Nat) (pre : List MergeRequest) (m : MergeRequest),
      RootPath mrs pre m → mrs.length + 1 ≤ pre.length + 1 + fuel →
      ∃ seg, ChainFrom mrs m seg := by
  intro fuel
  induction fuel with
  | zero =>
    intro pre m hrp hlen
    exfalso
    have hnd := rootPath_nodup h1 hrp
    have hsub : (pre ++ [m]) ⊆ mrs := fun x hx => rootPath_mem hrp x hx
    have hle := (List.subperm_of_subset hnd hsub).length_le
    simp at hle
    omega
  | succ fuel ih =>
    intro pre m hrp hlen
    cases hd : mrs_dict_find mrs m.source_branch with
    | none => exact ⟨[m], .last m hd⟩
    | some c =>
      obtain ⟨seg, hseg⟩ := ih (pre ++ [m]) c (.step pre m c hrp hd)
        (by simp only [List.length_append, List.length_singleton]; omega)
      exact ⟨m :: seg, .cons m c seg hd hseg⟩

/-- Helper: the walk starts at its start element. -/
theorem chainFrom_head {mrs : List MergeRequest} {m : MergeRequest}
    {seg : List MergeRequest} (h : ChainFrom mrs m seg) :
    seg.head? = some m := by
  cases h <;> rfl

/-- Helper: the start element is on its own walk. -/
theorem chainFrom_mem_self {mrs : List MergeRequest} {m : MergeRequest}
    {seg : List MergeRequest} (h : ChainFrom mrs m seg) : m ∈ seg := by
  cases h <;> simp

/-- Helper: from a member, every walk element is a member. -/
theorem chainFrom_subset {mrs : List MergeRequest} :
    ∀ {m : MergeRequest} {seg : List MergeRequest}, ChainFrom mrs m seg →
      m ∈ mrs → ∀ x ∈ seg, x ∈ mrs := by
  intro m seg h
  induction h with
  | last a _ =>
    intro ha x hx
    rw [List.mem_singleton] at hx
    subst hx; exact ha
  | cons a c seg' hd hc ih =>
    intro ha x hx
    rcases List.mem_cons.mp hx with rfl | hx2
    · exact ha
    · exact ih (mrs_dict_find_mem hd).1 x hx2

/-- Helper: along a walk, each element's target branch is its predecessor's
source branch. -/
theorem chainFrom_chain {mrs : List MergeRequest} {m : MergeRequest}
    {seg : List MergeRequest} (h : ChainFrom mrs m seg) :
    List.Chain' (fun p c => c.target_branch = some p.source_branch) seg := by
  induction h with
  | last a _ => simp
  | cons a c seg' hd hc ih =>
    rw [List.chain'_cons']
    refine ⟨?_, ih⟩
    intro y hy
    rw [chainFrom_head hc] at hy
    have hyc : c = y := by simpa using hy
    rw [← hyc]
    exact (mrs_dict_find_mem hd).2

/-- Helper: the fueled inner loop computes exactly the walk when given at
least the walk's length as fuel. -/
theorem chainFrom_run {mrs : List MergeRequest} :
    ∀ {m : MergeRequest} {seg : List MergeRequest}, ChainFrom mrs m seg →
      ∀ fuel, seg.length ≤ fuel → chain_inner mrs m fuel = some seg := by
  intro m seg h
  induction h with
  | last a hd =>
    intro fuel hfuel
    match fuel, hfuel with
    | fuel + 1, _ => simp [chain_inner, hd]
  | cons a c seg' hd hc ih =>
    intro fuel hfuel
    match fuel, hfuel with
    | fuel + 1, hfuel =>
      have hlen : seg'.length ≤ fuel := by
        simp at hfuel; omega
      simp [chain_inner, hd, ih fuel hlen]

/-- Helper: a walk that starts at the end of a root path is disjoint from the
path and visits no element twice. -/
theorem chainFrom_nodup_aux {mrs : List MergeRequest}
    (h1 : (sourceBranches mrs).Nodup) :
    ∀ {m : MergeRequest} {seg : List MergeRequest}, ChainFrom mrs m seg →
      ∀ pre, RootPath mrs pre m → seg.Nodup ∧ ∀ x ∈ seg, x ∉ pre := by
  intro m seg h
  induction h with
  | last a _ =>
    intro pre hrp
    refine ⟨List.nodup_singleton a, ?_⟩
    intro x hx
    rw [List.mem_singleton] at hx
    subst hx
    rcases List.nodup_append.mp (rootPath_nodup h1 hrp) with ⟨_, _, hdisj⟩
    intro hp
    exact hdisj hp (by simp)
  | cons a c seg' hd hc ih =>
    intro pre hrp
    obtain ⟨hnd', hnotin⟩ := ih (pre ++ [a]) (.step pre a c hrp hd)
    have hanotseg : a ∉ seg' := by
      intro ha
      exact hnotin a ha (List.mem_append_right _ (by simp))
    have hanotpre : a ∉ pre := by
      rcases List.nodup_append.mp (rootPath_nodup h1 hrp) with ⟨_, _, hdisj⟩
      intro hp
      exact hdisj hp (by simp)
    refine ⟨List.nodup_cons.mpr ⟨hanotseg, hnd'⟩, ?_⟩
    intro x hx
    rcases List.mem_cons.mp hx with rfl | hx2
    · exact hanotpre
    · intro hp
      exact hnotin x hx2 (List.mem_append_left _ hp)

/-- Helper: a walk is closed under the dict successor. -/
theorem chainFrom_closed {mrs : List MergeRequest} :
    ∀ {r : MergeRequest} {seg : List MergeRequest}, ChainFrom mrs r seg →
      ∀ p ∈ seg, ∀ c, mrs_dict_find mrs p.source_branch = some c →
      c ∈ seg := by
  intro r seg h
  induction h with
  | last a hd =>
    intro p hp c hc
    rw [List.mem_singleton] at hp
    subst hp
    rw [hd] at hc
    simp at hc
  | cons a c' seg' hd hc ih =>
    intro p hp d hdp
    rcases List.mem_cons.mp hp with rfl | hp2
    · rw [hd] at hdp
      have : c' = d := Option.some.inj hdp
      subst this
      exact List.mem_cons_of_mem _ (chainFrom_mem_self hc)
    · exact List.mem_cons_of_mem _ (ih p hp2 d hdp)

/-- Helper: every walk element is reachable from the walk's start by dict
successor steps. -/
theorem chainFrom_downReach {mrs : List MergeRequest} :
    ∀ {r : MergeRequest} {seg : List MergeRequest}, ChainFrom mrs r seg →
      ∀ x ∈ seg, DownReach mrs r x := by
  intro r seg h
  induction h with
  | last a _ =>
    intro x hx
    rw [List.mem_singleton] at hx
    subst hx
    exact .refl _
  | cons a c seg' hd hc ih =>
    intro x hx
    rcases List.mem_cons.mp hx with rfl | hx2
    · exact .refl x
    · exact .head a c x hd (ih x hx2)

/-- Helper: nothing reaches a root by successor steps except the root itself
(its target branch is no member's source branch). -/
theorem downReach_root_eq {mrs : List MergeRequest} :
    ∀ {x m : MergeRequest}, DownReach mrs x m → x ∈ mrs →
      is_root mrs m = true → x = m := by
  intro x m h
  induction h with
  | refl a => intro _ _; rfl
  | head p c m2 hpc hcm ih =>
    intro hp hr
    have hcmem : c ∈ mrs := (mrs_dict_find_mem hpc).1
    have hcm2 : c = m2 := ih hcmem hr
    subst hcm2
    exact (is_root_true_target hr hp (mrs_dict_find_mem hpc).2).elim

/-- Helper: with injective source branches the parent of a node is unique, so
a node reaching a dict successor reaches its unique parent too (or is the
successor itself). -/
theorem downReach_back {mrs : List MergeRequest}
    (h1 : (sourceBranches mrs).Nodup) {x : MergeRequest} (hx : x ∈ mrs) :
    ∀ {y c : MergeRequest}, DownReach mrs y c → y ∈ mrs →
      mrs_dict_find mrs x.source_branch = some c →
      DownReach mrs y x ∨ y = c := by
  intro y c h
  induction h with
  | refl a => intro _ _; exact .inr rfl
  | head a d b had hdb ih =>
    intro ha hxb
    have hd : d ∈ mrs := (mrs_dict_find_mem had).1
    rcases ih hd hxb with h2 | h2
    · exact .inl (.head a d x had h2)
    · subst h2
      have h3 := (mrs_dict_find_mem had).2
      have h4 := (mrs_dict_find_mem hxb).2
      have h5 : a.source_branch = x.source_branch := by
        rw [h3] at h4
        exact Option.some.inj h4
      have hax : a = x := source_inj h1 ha hx h5
      subst hax
      exact .inl (.refl a)

/-- Helper: two nodes that reach a common node by deterministic successor
steps are comparable: one reaches the other. -/
theorem downReach_comparable {mrs : List MergeRequest}
    (h1 : (sourceBranches mrs).Nodup) {y : MergeRequest} (hy : y ∈ mrs) :
    ∀ {x m : MergeRequest}, DownReach mrs x m → x ∈ mrs →
      DownReach mrs y m → DownReach mrs x y ∨ DownReach mrs y x := by
  intro x m h
  induction h with
  | refl a => intro _ hym; exact .inr hym
  | head p c m2 hpc hcm ih =>
    intro hp hym
    have hc : c ∈ mrs := (mrs_dict_find_mem hpc).1
    rcases ih hc hym with h2 | h2
    · exact .inl (.head p c y hpc h2)
    · rcases downReach_back h1 hp h2 hy hpc with h3 | h3
      · exact .inr h3
      · subst h3
        exact .inl (.head p y y hpc (.refl y))

/-- Helper: a node is reachable from at most one root. -/
theorem downReach_root_unique {mrs : List MergeRequest}
    (h1 : (sourceBranches mrs).Nodup) {r1 r2 m : MergeRequest}
    (hr1m : r1 ∈ mrs) (hr2m : r2 ∈ mrs)
    (hr1 : is_root mrs r1 = true) (hr2 : is_root mrs r2 = true)
    (hd1 : DownReach mrs r1 m) (hd2 : DownReach mrs r2 m) : r1 = r2 := by
  rcases downReach_comparable h1 hr2m hd1 hr1m hd2 with h | h
  · exact downReach_root_eq h hr1m hr2
  · exact (downReach_root_eq h hr2m hr1).symm

/-- Helper: each left element of a `Forall₂` pairing has a related right
element. -/
theorem forall2_exists_left {α β : Type} {R : α → β → Prop} :
    ∀ {l1 : List α} {l2 : List β}, List.Forall₂ R l1 l2 →
      ∀ a ∈ l1, ∃ b ∈ l2, R a b := by
  intro l1 l2 h
  induction h with
  | nil => intro a ha; exact absurd ha (List.not_mem_nil a)
  | cons hR hF ih =>
    intro a ha
    rcases List.mem_cons.mp ha with rfl | ha2
    · exact ⟨_, by simp, hR⟩
    · obtain ⟨b, hb, hRb⟩ := ih a ha2
      exact ⟨b, List.mem_cons_of_mem _ hb, hRb⟩

/-- Helper: each right element of a `Forall₂` pairing has a related left
element. -/
theorem forall2_exists_right {α β : Type} {R : α → β → Prop} :
    ∀ {l1 : List α} {l2 : List β}, List.Forall₂ R l1 l2 →
      ∀ b ∈ l2, ∃ a ∈ l1, R a b := by
  intro l1 l2 h
  induction h with
  | nil => intro b hb; exact absurd hb (List.not_mem_nil b)
  | cons hR hF ih =>
    intro b hb
    rcases List.mem_cons.mp hb with rfl | hb2
    · exact ⟨_, by simp, hR⟩
    · obtain ⟨a, ha, hRa⟩ := ih b hb2
      exact ⟨a, List.mem_cons_of_mem _ ha, hRa⟩

/-- Helper: a pairwise property transfers along a `Forall₂` pairing. -/
theorem forall2_pairwise {α β : Type} {R : α → β → Prop} {P : α → α → Prop}
    {Q : β → β → Prop}
    (hPQ : ∀ a b a2 b2, R a b → R a2 b2 → P a a2 → Q b b2) :
    ∀ {l1 : List α} {l2 : List β}, List.Forall₂ R l1 l2 →
      l1.Pairwise P → l2.Pairwise Q := by
  intro l1 l2 h
  induction h with
  | nil => intro _; exact List.Pairwise.nil
  | cons hR hF ih =>
    intro hp
    rcases List.pairwise_cons.mp hp with ⟨hhead, htail⟩
    refine List.Pairwise.cons ?_ (ih htail)
    intro b2 hb2
    obtain ⟨a2, ha2, hRa2⟩ := forall2_exists_right hF b2 hb2
    exact hPQ _ _ _ _ hR hRa2 (hhead a2 ha2)

/-- Helper: a left-elementwise property can be packaged into a `Forall₂`
pairing. -/
theorem forall2_strengthen {α β : Type} {R : α → β → Prop} {S : α → Prop} :
    ∀ {l1 : List α} {l2 : List β}, List.Forall₂ R l1 l2 →
      (∀ a ∈ l1, S a) → List.Forall₂ (fun a b => S a ∧ R a b) l1 l2 := by
  intro l1 l2 h
  induction h with
  | nil => intro _; exact .nil
  | cons hR hF ih =>
    intro hS
    exact .cons ⟨hS _ (by simp), hR⟩
      (ih fun a ha => hS a (List.mem_cons_of_mem _ ha))

/-- Helper: the root loop concatenates the per-root walks in root order. -/
theorem chain_outer_spec {mrs : List MergeRequest} (fuel : Nat) :
    ∀ rs : List MergeRequest,
      (∀ r ∈ rs, ∃ seg, ChainFrom mrs r seg ∧ seg.length ≤ fuel) →
      ∃ segs, chain_outer mrs fuel rs = some segs.flatten ∧
        List.Forall₂ (fun r seg => ChainFrom mrs r seg) rs segs := by
  intro rs
  induction rs with
  | nil => intro _; exact ⟨[], rfl, .nil⟩
  | cons r rs ih =>
    intro hall
    obtain ⟨seg, hseg, hlen⟩ := hall r (by simp)
    obtain ⟨segs, hsegs, hF⟩ :=
      ih (fun r2 h2 => hall r2 (List.mem_cons_of_mem _ h2))
    refine ⟨seg :: segs, ?_, .cons hseg hF⟩
    simp [chain_outer, chainFrom_run hseg fuel hlen, hsegs]

/-- Claim C1: when the source branches are pairwise distinct and the target
links form, per root, a single acyclic linked list — at most one member
targets any present source branch, and every member is reachable from a root
— `get_merge_request_chain` terminates and returns the concatenation, in
root input order, of one segment per root; each segment starts at its root,
each segment element's target branch is its predecessor's source branch, and
the whole output is a permutation of the input (so it contains each root's
members).  The empty input yields the empty list (the hypotheses then hold
vacuously and the segment list is empty). -/
theorem get_merge_request_chain_ordered (mrs : List MergeRequest)
    (h1 : (sourceBranches mrs).Nodup)
    (h2 : ∀ m1 ∈ mrs, ∀ m2 ∈ mrs, m1.target_branch = m2.target_branch →
      is_root mrs m1 = false → m1 = m2)
    (h3 : ∀ m ∈ mrs, Reaches mrs m) :
    ∃ segs : List (List MergeRequest),
      get_merge_request_chain mrs = some segs.flatten ∧
      segs.flatten.Perm mrs ∧
      List.Forall₂ (fun r seg => seg.head? = some r ∧
        List.Chain' (fun p c => c.target_branch = some p.source_branch) seg)
        (rootsOf mrs) segs := by
  by_cases hopt : mrs = []
  · subst hopt
    exact ⟨[], rfl, by simp, by constructor⟩
  · have hne : mrs.isEmpty = false := by
      cases mrs with
      | nil => exact absurd rfl hopt
      | cons a l => rfl
    have hrootprop : ∀ r ∈ rootsOf mrs, r ∈ mrs ∧ is_root mrs r = true := by
      intro r hr
      exact List.mem_filter.mp hr
    have hex : ∀ r ∈ rootsOf mrs,
        ∃ seg, ChainFrom mrs r seg ∧ seg.length ≤ mrs.length + 1 := by
      intro r hr
      obtain ⟨hrm, hrroot⟩ := hrootprop r hr
      obtain ⟨seg, hseg⟩ := chainFrom_exists h1 mrs.length []
        r (.base r hrm hrroot) (by simp; omega)
      have hnd := (chainFrom_nodup_aux h1 hseg [] (.base r hrm hrroot)).1
      have hsub := chainFrom_subset hseg hrm
      have hle : seg.length ≤ mrs.length :=
        (List.subperm_of_subset hnd (fun x hx => hsub x hx)).length_le
      exact ⟨seg, hseg, by omega⟩
    obtain ⟨segs, houter, hF⟩ := chain_outer_spec (mrs.length + 1)
      (rootsOf mrs) hex
    have hget : get_merge_request_chain mrs = some segs.flatten := by
      simp [get_merge_request_chain, hne, houter]
    have hF' : List.Forall₂
        (fun r seg => (r ∈ mrs ∧ is_root mrs r = true) ∧ ChainFrom mrs r seg)
        (rootsOf mrs) segs := forall2_strengthen hF hrootprop
    have hsub : ∀ x ∈ segs.flatten, x ∈ mrs := by
      intro x hx
      obtain ⟨seg, hseg, hxseg⟩ := List.mem_flatten.mp hx
      obtain ⟨r, _, ⟨⟨hrm, _⟩, hcf⟩⟩ := forall2_exists_right hF' seg hseg
      exact chainFrom_subset hcf hrm x hxseg
    have hcov : ∀ m, Reaches mrs m → m ∈ segs.flatten := by
      intro m hr
      induction hr with
      | root a ham haroot =>
        have haR : a ∈ rootsOf mrs := List.mem_filter.mpr ⟨ham, haroot⟩
        obtain ⟨seg, hseg, hcf⟩ := forall2_exists_left hF a haR
        exact List.mem_flatten.mpr ⟨seg, hseg, chainFrom_mem_self hcf⟩
      | step p a hpR ham hat ih =>
        obtain ⟨seg, hseg, hpseg⟩ := List.mem_flatten.mp ih
        have hpm : p ∈ mrs := hsub p (List.mem_flatten.mpr ⟨seg, hseg, hpseg⟩)
        have hdict : mrs_dict_find mrs p.source_branch = some a :=
          mrs_dict_find_eq h2 ham hat (mem_sourceBranches hpm)
        obtain ⟨r, _, hcf⟩ := forall2_exists_right hF seg hseg
        exact List.mem_flatten.mpr
          ⟨seg, hseg, chainFrom_closed hcf p hpseg a hdict⟩
    have hndflat : segs.flatten.Nodup := by
      rw [List.nodup_flatten]
      constructor
      · intro seg hseg
        obtain ⟨r, _, ⟨⟨hrm, hrroot⟩, hcf⟩⟩ := forall2_exists_right hF' seg hseg
        exact (chainFrom_nodup_aux h1 hcf [] (.base r hrm hrroot)).1
      · have hmrsnd : mrs.Nodup := h1.of_map _
        have hrootsnd : (rootsOf mrs).Nodup :=
          hmrsnd.sublist (List.filter_sublist mrs)
        refine forall2_pairwise ?_ hF' hrootsnd
        intro r1 seg1 r2 seg2 hR1 hR2 hne12
        obtain ⟨⟨hr1m, hr1root⟩, hcf1⟩ := hR1
        obtain ⟨⟨hr2m, hr2root⟩, hcf2⟩ := hR2
        intro x hx1 hx2
        exact hne12 (downReach_root_unique h1 hr1m hr2m hr1root hr2root
          (chainFrom_downReach hcf1 x hx1) (chainFrom_downReach hcf2 x hx2))
    have hperm : segs.flatten.Perm mrs :=
      (List.perm_ext_iff_of_nodup hndflat (h1.of_map _)).mpr
        (fun a => ⟨fun ha => hsub a ha, fun ha => hcov a (h3 a ha)⟩)
    exact ⟨segs, hget, hperm,
      List.Forall₂.imp
        (fun r seg hcf => ⟨chainFrom_head hcf, chainFrom_chain hcf⟩) hF⟩

/-- Claim C1 witness: on the two-element chain `mr_a ← mr_b` the theorem's
hypotheses hold and the function returns the root-first order. -/
theorem get_merge_request_chain_ordered_witness :
    (sourceBranches [mr_a, mr_b]).Nodup ∧
    (∃ segs : List (List MergeRequest),
      get_merge_request_chain [mr_a, mr_b] = some segs.flatten ∧
      segs.flatten.Perm [mr_a, mr_b] ∧
      List.Forall₂ (fun r seg => seg.head? = some r ∧
        List.Chain' (fun p c => c.target_branch = some p.source_branch) seg)
        (rootsOf [mr_a, mr_b]) segs) :=
  ⟨by decide,
    get_merge_request_chain_ordered [mr_a, mr_b] (by decide) (by decide)
      (by
        intro m hm
        rcases List.mem_cons.mp hm with rfl | hm2
        · exact .root mr_a (by decide) (by decide)
        · rcases List.mem_singleton.mp hm2 with rfl
          exact .step mr_a mr_b (.root mr_a (by decide) (by decide))
            (by decide) (by decide))⟩
